import Mathlib

/-!
Shallow embedding of the descriptor-key module (`src/descriptor/key.rs`) of
elements-miniscript, together with proofs about its parser, serializer,
derivation engine and matcher.

Strings are modelled as `List Char`; the Rust code's byte-level operations are
faithful on these because the parser rejects any byte outside the printable
ASCII range `[20, 127]` before doing anything else (and the one check that
happens earlier, the 66-byte length gate, is modelled by an explicit UTF-8
byte count).  The external key primitives (raw public keys, WIF private keys,
BIP32 extended keys) are out of scope for the repository under review and are
abstracted as parameters: a `PubPrims`/`SecPrims` bundle of parse/render
functions, constrained only by the properties their canonical text forms
really have (`PubPrimsOk`/`SecPrimsOk`).
-/

deriving instance DecidableEq for Except

namespace ElementsMiniscript

/-- A single BIP32 derivation step: `bip32::ChildNumber`. -/
inductive ChildNumber where
  | normal (index : Nat)
  | hardened (index : Nat)
deriving DecidableEq

/-- `bip32::ChildNumber::is_normal`. -/
def ChildNumber.isNormal : ChildNumber → Bool
  | .normal _ => true
  | .hardened _ => false

/-- The child index carried by a step. -/
def ChildNumber.index : ChildNumber → Nat
  | .normal i => i
  | .hardened i => i

/-- The closed set of `DescriptorKeyParseError` causes (plus the
derivation-failure cause of `as_public`), one constructor per distinct
static message string in the source. -/
inductive Err where
  | unprintableChar
  | emptyKey
  | keyTooShort
  | unclosedBracket
  | noMasterFingerprint
  | fingerprintWrongLength
  | malformedFingerprint
  | malformedOriginPath
  | noKeyAfterOrigin
  | noKeyFound
  | multipleClosingBrackets
  | badPubkeyPrefix
  | malformedPubkey
  | malformedWif
  | malformedXkey
  | malformedDerivStep
  | hardenedDerivationUnsupported
  | wildcardNotLast
  | unableToDeriveHardened
deriving DecidableEq

/-- `DescriptorXKey<K>`: an extended key with optional origin, pending
derivation path and wildcard flag. -/
structure DescriptorXKey (K : Type) where
  origin : Option (Nat × List ChildNumber)
  xkey : K
  derivation_path : List ChildNumber
  is_wildcard : Bool
deriving DecidableEq

/-- `DescriptorPublicKey`, parametric in the external raw-key and xpub types. -/
inductive DescriptorPublicKey (PubKey Xpub : Type) where
  | SinglePub (origin : Option (Nat × List ChildNumber)) (key : PubKey)
  | XPub (xk : DescriptorXKey Xpub)
deriving DecidableEq

/-- `DescriptorSecretKey`, parametric in the external WIF-key and xprv types. -/
inductive DescriptorSecretKey (PrivKey Xprv : Type) where
  | SinglePriv (origin : Option (Nat × List ChildNumber)) (key : PrivKey)
  | XPrv (xk : DescriptorXKey Xprv)
deriving DecidableEq

/-! ### String utilities mirroring the Rust `str` operations used -/

/-- Rust `str::split(sep)` collected to a list: always returns at least one
(possibly empty) piece. -/
def splitOnChar (sep : Char) : List Char → List (List Char)
  | [] => [[]]
  | c :: cs =>
    let rest := splitOnChar sep cs
    if c = sep then [] :: rest
    else
      match rest with
      | r :: rs => (c :: r) :: rs
      | [] => [[c]]

/-- Boolean "is a prefix of" on character lists. -/
def isPre : List Char → List Char → Bool
  | [], _ => true
  | _ :: _, [] => false
  | a :: as, b :: bs => a = b && isPre as bs

/-- Rust `str::contains(pat)`: some contiguous substring equals `pat`. -/
def containsSub (pat : List Char) : List Char → Bool
  | [] => isPre pat []
  | c :: cs => isPre pat (c :: cs) || containsSub pat cs

/-- Number of bytes of the UTF-8 encoding of one character. -/
def utf8Size (c : Char) : Nat :=
  if c.toNat < 128 then 1
  else if c.toNat < 2048 then 2
  else if c.toNat < 65536 then 3
  else 4

/-- Rust `str::len`: the UTF-8 byte length. -/
def utf8Len (l : List Char) : Nat :=
  (l.map utf8Size).sum

/-- A character the Rust parser considers printable: byte values 20..=127. -/
def printable (c : Char) : Prop :=
  20 ≤ c.toNat ∧ c.toNat ≤ 127

instance (c : Char) : Decidable (printable c) := by
  unfold printable; infer_instance

/-! ### Digit machinery (decimal and hexadecimal) -/

/-- Value of a base-`B` little-endian digit list. -/
def ofLE (B : Nat) : List Nat → Nat
  | [] => 0
  | d :: ds => d + B * ofLE B ds

/-- Little-endian base-10 digits of a number (empty for 0). -/
def toDecLE : Nat → List Nat
  | 0 => []
  | n + 1 => ((n + 1) % 10) :: toDecLE ((n + 1) / 10)
decreasing_by exact Nat.div_lt_self (Nat.succ_pos n) (by norm_num)

/-- Little-endian base-16 digits, fixed width. -/
def toHexLE : Nat → Nat → List Nat
  | 0, _ => []
  | w + 1, n => (n % 16) :: toHexLE w (n / 16)

/-! ### Characters for digits and hex digits -/

/-- The apostrophe character marking a hardened step. -/
def quoteChar : Char := Char.ofNat 39

/-- Decimal digit to character. -/
def digitChar (d : Nat) : Char :=
  match d with
  | 0 => '0' | 1 => '1' | 2 => '2' | 3 => '3' | 4 => '4'
  | 5 => '5' | 6 => '6' | 7 => '7' | 8 => '8' | 9 => '9'
  | _ => '0'

/-- Hex digit to (lowercase) character, as `{:02x}` renders it. -/
def hexChar (d : Nat) : Char :=
  match d with
  | 0 => '0' | 1 => '1' | 2 => '2' | 3 => '3' | 4 => '4'
  | 5 => '5' | 6 => '6' | 7 => '7' | 8 => '8' | 9 => '9'
  | 10 => 'a' | 11 => 'b' | 12 => 'c' | 13 => 'd' | 14 => 'e' | 15 => 'f'
  | _ => '0'

/-- Value of a hex character, case-insensitive (`FromHex`). -/
def hexDigitVal (c : Char) : Option Nat :=
  if 48 ≤ c.toNat ∧ c.toNat ≤ 57 then some (c.toNat - 48)
  else if 97 ≤ c.toNat ∧ c.toNat ≤ 102 then some (c.toNat - 87)
  else if 65 ≤ c.toNat ∧ c.toNat ≤ 70 then some (c.toNat - 55)
  else none

/-! ### Rust `u32::from_str` and `bip32::ChildNumber::from_str` -/

/-- Rust `u32::from_str`: optional leading `+`, then one or more decimal
digits, value at most `u32::MAX`. -/
def parseU32 (p : List Char) : Option Nat :=
  let q := if p.head? = some '+' then p.tail else p
  if q ≠ [] ∧ q.all Char.isDigit then
    let n := q.foldl (fun acc c => 10 * acc + (c.toNat - 48)) 0
    if n ≤ 4294967295 then some n else none
  else none

/-- `bip32::ChildNumber::from_str`: a trailing apostrophe or `h` marks a
hardened step; the index must be below `2^31`. -/
def childNumberFromStr (p : List Char) : Option ChildNumber :=
  if p.getLast? = some quoteChar ∨ p.getLast? = some 'h' then
    match parseU32 p.dropLast with
    | some n => if n < 2147483648 then some (.hardened n) else none
    | none => none
  else
    match parseU32 p with
    | some n => if n < 2147483648 then some (.normal n) else none
    | none => none

/-- `ChildNumber::from_str` applied to each piece of an origin or derivation
path, short-circuiting on failure (the `collect::<Result<..>>` idiom). -/
def childList : List (List Char) → Option (List ChildNumber)
  | [] => some []
  | p :: ps =>
    match childNumberFromStr p, childList ps with
    | some c, some cs => some (c :: cs)
    | _, _ => none

/-- `bip32::Fingerprint::from_hex` on an 8-character segment, as the
big-endian value of the 4 bytes. -/
def parseHex8 (l : List Char) : Option Nat :=
  match hexVals l with
  | some ds => some (ds.foldl (fun acc d => 16 * acc + d) 0)
  | none => none
where
  /-- Hex value of every character, or `none` if one is not hex. -/
  hexVals : List Char → Option (List Nat)
    | [] => some []
    | c :: cs =>
      match hexDigitVal c, hexVals cs with
      | some d, some ds => some (d :: ds)
      | _, _ => none

/-! ### Renderers (the `Display` implementations) -/

/-- Decimal rendering of a number (`{}` on a `u32`). -/
def renderDec (n : Nat) : List Char :=
  if n = 0 then ['0'] else ((toDecLE n).reverse.map digitChar)

/-- The 8 lowercase hex characters of a fingerprint (`{:02x}` per byte). -/
def renderHex8 (n : Nat) : List Char :=
  (toHexLE 8 n).reverse.map hexChar

/-- `Display` of a `bip32::ChildNumber`. -/
def renderChild : ChildNumber → List Char
  | .normal i => renderDec i
  | .hardened i => renderDec i ++ [quoteChar]

/-- `fmt_derivation_path`: each step rendered as `/step`. -/
def renderPath (p : List ChildNumber) : List Char :=
  (p.map (fun c => '/' :: renderChild c)).flatten

/-- `maybe_fmt_master_id`: the `[fingerprint/path]` prelude, when present. -/
def renderOrigin : Option (Nat × List ChildNumber) → List Char
  | none => []
  | some (fp, path) => '[' :: (renderHex8 fp ++ renderPath path) ++ [']']

/-! ### The parser (`parse_xkey_origin`, `parse_xkey_deriv`, `from_str`) -/

/-- `DescriptorXKey::parse_xkey_origin`: strip and parse the optional
`[fingerprint/path]` origin prelude, after rejecting unprintable bytes and
empty input. -/
def parse_xkey_origin (s : List Char) :
    Except Err (List Char × Option (Nat × List ChildNumber)) :=
  if s.any (fun c => c.toNat < 20 ∨ 127 < c.toNat) then .error .unprintableChar
  else if s = [] then .error .emptyKey
  else if s.head? = some '[' then
    match splitOnChar ']' s.tail with
    | [] => .error .unclosedBracket
    | originPart :: rest =>
      match splitOnChar '/' originPart with
      | [] => .error .noMasterFingerprint
      | fpHex :: pathParts =>
        if fpHex.length ≠ 8 then .error .fingerprintWrongLength
        else
          match parseHex8 fpHex with
          | none => .error .malformedFingerprint
          | some fp =>
            match childList pathParts with
            | none => .error .malformedOriginPath
            | some originPath =>
              match rest with
              | [] => .error .noKeyAfterOrigin
              | key :: rest2 =>
                if rest2 ≠ [] then .error .multipleClosingBrackets
                else .ok (key, some (fp, originPath))
  else .ok (s, none)

/-- The `filter_map` loop of `parse_xkey_deriv`, threading the `is_wildcard`
flag: `*` may occur once, last, and never hardened. -/
def parseDerivSteps : List (List Char) → Bool → Except Err (List ChildNumber × Bool)
  | [], w => .ok ([], w)
  | p :: ps, w =>
    if w = false ∧ p = ['*'] then parseDerivSteps ps true
    else if w = false ∧ p = ['*', quoteChar] then .error .hardenedDerivationUnsupported
    else if w = true then .error .wildcardNotLast
    else
      match childNumberFromStr p with
      | none => .error .malformedDerivStep
      | some c =>
        match parseDerivSteps ps w with
        | .error e => .error e
        | .ok (cs, wOut) => .ok (c :: cs, wOut)

/-- `DescriptorXKey::parse_xkey_deriv`: split on `/`, parse the extended key
from the first piece (via the external primitive `parseX`), then the
derivation steps; a public-typed key (`canDeriveHardened = false`) rejects
any hardened step. -/
def parse_xkey_deriv {X : Type} (parseX : List Char → Option X) (canDeriveHardened : Bool)
    (keyDeriv : List Char) : Except Err (X × List ChildNumber × Bool) :=
  match splitOnChar '/' keyDeriv with
  | [] => .error .noKeyFound
  | xkeyStr :: rest =>
    match parseX xkeyStr with
    | none => .error .malformedXkey
    | some xkey =>
      match parseDerivSteps rest false with
      | .error e => .error e
      | .ok (dpath, w) =>
        if canDeriveHardened = false ∧ dpath.all ChildNumber.isNormal = false then
          .error .hardenedDerivationUnsupported
        else .ok (xkey, dpath, w)

/-- The external raw-pubkey and xpub primitives: parse-from-text and
canonical-text rendering, as consumed by the public-key parser. -/
structure PubPrims (PubKey Xpub : Type) where
  parse_pubkey : List Char → Option PubKey
  render_pubkey : PubKey → List Char
  parse_xpub : List Char → Option Xpub
  render_xpub : Xpub → List Char

/-- The external WIF-privkey and xprv primitives. -/
structure SecPrims (PrivKey Xprv : Type) where
  parse_wif : List Char → Option PrivKey
  render_wif : PrivKey → List Char
  parse_xprv : List Char → Option Xprv
  render_xprv : Xprv → List Char

/-- The substring driving the extended-key classification heuristic. -/
def pubPat : List Char := ['p', 'u', 'b']

/-- `DescriptorPublicKey::from_str`. -/
def DescriptorPublicKey.from_str {PubKey Xpub : Type} (P : PubPrims PubKey Xpub)
    (s : List Char) : Except Err (DescriptorPublicKey PubKey Xpub) :=
  if utf8Len s < 66 then .error .keyTooShort
  else
    match parse_xkey_origin s with
    | .error e => .error e
    | .ok (keyPart, origin) =>
      if containsSub pubPat keyPart then
        match parse_xkey_deriv P.parse_xpub false keyPart with
        | .error e => .error e
        | .ok (xpub, dpath, w) => .ok (.XPub ⟨origin, xpub, dpath, w⟩)
      else
        if 2 ≤ keyPart.length ∧
            ¬(keyPart.take 2 = ['0', '2'] ∨ keyPart.take 2 = ['0', '3'] ∨
              keyPart.take 2 = ['0', '4']) then
          .error .badPubkeyPrefix
        else
          match P.parse_pubkey keyPart with
          | none => .error .malformedPubkey
          | some key => .ok (.SinglePub origin key)

/-- `DescriptorSecretKey::from_str`.  Note that the WIF branch of the source
constructs `DescriptorSinglePriv { origin: None, .. }`, discarding the origin
it just parsed; this is modelled faithfully. -/
def DescriptorSecretKey.from_str {PrivKey Xprv : Type} (Q : SecPrims PrivKey Xprv)
    (s : List Char) : Except Err (DescriptorSecretKey PrivKey Xprv) :=
  match parse_xkey_origin s with
  | .error e => .error e
  | .ok (keyPart, origin) =>
    if keyPart.length ≤ 52 then
      match Q.parse_wif keyPart with
      | none => .error .malformedWif
      | some sk => .ok (.SinglePriv none sk)
    else
      match parse_xkey_deriv Q.parse_xprv true keyPart with
      | .error e => .error e
      | .ok (xprv, dpath, w) => .ok (.XPrv ⟨origin, xprv, dpath, w⟩)

/-! ### The serializer (the `Display` implementations) -/

/-- `Display for DescriptorPublicKey`. -/
def DescriptorPublicKey.to_text {PubKey Xpub : Type} (P : PubPrims PubKey Xpub) :
    DescriptorPublicKey PubKey Xpub → List Char
  | .SinglePub origin key => renderOrigin origin ++ P.render_pubkey key
  | .XPub xk =>
    renderOrigin xk.origin ++ P.render_xpub xk.xkey ++ renderPath xk.derivation_path ++
      (if xk.is_wildcard then ['/', '*'] else [])

/-- `Display for DescriptorSecretKey`. -/
def DescriptorSecretKey.to_text {PrivKey Xprv : Type} (Q : SecPrims PrivKey Xprv) :
    DescriptorSecretKey PrivKey Xprv → List Char
  | .SinglePriv origin key => renderOrigin origin ++ Q.render_wif key
  | .XPrv xk =>
    renderOrigin xk.origin ++ Q.render_xprv xk.xkey ++ renderPath xk.derivation_path ++
      (if xk.is_wildcard then ['/', '*'] else [])

/-! ### Derivation engine and matcher -/

/-- `DescriptorPublicKey::derive`: resolve a wildcard with a child index. -/
def DescriptorPublicKey.derive {PubKey Xpub : Type}
    (k : DescriptorPublicKey PubKey Xpub) (child_number : ChildNumber) :
    DescriptorPublicKey PubKey Xpub :=
  match k with
  | .SinglePub _ _ => k
  | .XPub xpub =>
    if xpub.is_wildcard then
      .XPub ⟨xpub.origin, xpub.xkey, xpub.derivation_path ++ [child_number], false⟩
    else .XPub xpub

/-- `DescriptorXKey::<ExtendedPrivKey>::as_public`, with the external BIP32
operations passed in: `derive_priv` (fallible child derivation),
`from_private` (xprv to xpub) and `fingerprint`. -/
def DescriptorXKey.as_public {Xprv Xpub : Type}
    (derive_priv : Xprv → List ChildNumber → Option Xprv)
    (from_private : Xprv → Xpub) (fingerprint : Xprv → Nat)
    (k : DescriptorXKey Xprv) : Except Err (DescriptorXKey Xpub) :=
  let path_len := k.derivation_path.length
  let public_suffix_len := (k.derivation_path.reverse.takeWhile ChildNumber.isNormal).length
  let derivation_path := k.derivation_path.drop (path_len - public_suffix_len)
  let deriv_on_hardened := k.derivation_path.take (path_len - public_suffix_len)
  match derive_priv k.xkey deriv_on_hardened with
  | none => .error .unableToDeriveHardened
  | some derived_xprv =>
    let origin := match k.origin with
      | some (f, origin_path) => some (f, origin_path ++ deriv_on_hardened)
      | none =>
        if deriv_on_hardened.isEmpty = false then
          some (fingerprint k.xkey, deriv_on_hardened)
        else none
    .ok ⟨origin, from_private derived_xprv, derivation_path, k.is_wildcard⟩

/-- `DescriptorXKey::matches`, with the key's own fingerprint computation
(`self.xkey.xkey_fingerprint(secp)`) abstracted as `fpFn`. -/
def DescriptorXKey.matches {K : Type} (fpFn : K → Nat) (k : DescriptorXKey K)
    (keysource : Nat × List ChildNumber) : Option (List ChildNumber) :=
  let fingerprint := keysource.1
  let path := keysource.2
  let cmp : Nat × List ChildNumber :=
    match k.origin with
    | some (f, p) => (f, p ++ k.derivation_path)
    | none => (fpFn k.xkey, k.derivation_path)
  let pathExcl :=
    if k.is_wildcard = true ∧ 0 < path.length then path.take (path.length - 1) else path
  if cmp.1 = fingerprint ∧ cmp.2 = pathExcl then some pathExcl else none

/-! ### Concrete toy primitives, used to evaluate the parametric definitions
on explicit inputs -/

/-- A fixed raw-pubkey text: `02` followed by 64 `0`s (66 characters). -/
def toyPubKeyStr : List Char := '0' :: '2' :: List.replicate 64 '0'

/-- A fixed xpub text: `xpub` followed by 62 `A`s (66 characters). -/
def toyXpubStr : List Char := 'x' :: 'p' :: 'u' :: 'b' :: List.replicate 62 'A'

/-- A fixed WIF text: `K` followed by 50 `z`s (51 characters). -/
def toyWifStr : List Char := 'K' :: List.replicate 50 'z'

/-- A fixed xprv text: `xprv` followed by 62 `B`s (66 characters). -/
def toyXprvStr : List Char := 'x' :: 'p' :: 'r' :: 'v' :: List.replicate 62 'B'

/-- Toy public-key primitives recognising exactly the fixed texts. -/
def toyPubPrims : PubPrims Unit Unit where
  parse_pubkey s := if s = toyPubKeyStr then some () else none
  render_pubkey _ := toyPubKeyStr
  parse_xpub s := if s = toyXpubStr then some () else none
  render_xpub _ := toyXpubStr

/-- Toy secret-key primitives recognising exactly the fixed texts. -/
def toySecPrims : SecPrims Unit Unit where
  parse_wif s := if s = toyWifStr then some () else none
  render_wif _ := toyWifStr
  parse_xprv s := if s = toyXprvStr then some () else none
  render_xprv _ := toyXprvStr

/-- The characters `aabbccdd`, a sample origin fingerprint. -/
def fpSampleStr : List Char := ['a', 'a', 'b', 'b', 'c', 'c', 'd', 'd']

/-- A sample accepted public-key string: `[aabbccdd]` + toy xpub + `/1/*`. -/
def sampleXpubInput : List Char :=
  '[' :: fpSampleStr ++ [']'] ++ toyXpubStr ++ ['/', '1', '/', '*']

/-- The key `sampleXpubInput` parses to. -/
def sampleXpubKey : DescriptorPublicKey Unit Unit :=
  .XPub ⟨some (2864434397, []), (), [.normal 1], true⟩

/-! ### Specification-side derived notions -/

/-- The longest suffix of a path consisting only of normal steps (what the
spec calls `public_suffix`). -/
def pubSuf (l : List ChildNumber) : List ChildNumber :=
  (l.reverse.takeWhile ChildNumber.isNormal).reverse

/-- Everything before `pubSuf` (what the spec calls `hardened_prefix`). -/
def hardPre (l : List ChildNumber) : List ChildNumber :=
  (l.reverse.dropWhile ChildNumber.isNormal).reverse

/-- A well-formed child step: its index fits in 31 bits, as every
`bip32::ChildNumber` produced by parsing does. -/
def wfChild (c : ChildNumber) : Prop := c.index < 2147483648

/-- A well-formed origin: fingerprint fits in 4 bytes, steps well formed. -/
def wfOrigin : Option (Nat × List ChildNumber) → Prop
  | none => True
  | some (fp, path) => fp < 4294967296 ∧ ∀ c ∈ path, wfChild c

/-- The invariants every parsed `DescriptorPublicKey` satisfies. -/
def wfPub {PubKey Xpub : Type} : DescriptorPublicKey PubKey Xpub → Prop
  | .SinglePub origin _ => wfOrigin origin
  | .XPub xk =>
    wfOrigin xk.origin ∧ ∀ c ∈ xk.derivation_path, wfChild c ∧ c.isNormal = true

/-- The invariants every parsed `DescriptorSecretKey` satisfies. -/
def wfSec {PrivKey Xprv : Type} : DescriptorSecretKey PrivKey Xprv → Prop
  | .SinglePriv origin _ => origin = none
  | .XPrv xk => wfOrigin xk.origin ∧ ∀ c ∈ xk.derivation_path, wfChild c

/-- The properties of the canonical text forms of the external raw-pubkey and
xpub primitives that the round-trip argument uses: parse inverts render, and
renders are nonempty printable ASCII (66 bytes or more) avoiding the
parser's meta-characters, with the branch-classification facts (`pub` occurs
in an xpub's text, never in a raw key's hex text, which starts `02`/`03`/`04`). -/
structure PubPrimsOk {PubKey Xpub : Type} (P : PubPrims PubKey Xpub) : Prop where
  pubkey_rt : ∀ k, P.parse_pubkey (P.render_pubkey k) = some k
  xpub_rt : ∀ x, P.parse_xpub (P.render_xpub x) = some x
  pubkey_printable : ∀ k, ∀ c ∈ P.render_pubkey k, printable c
  xpub_printable : ∀ x, ∀ c ∈ P.render_xpub x, printable c
  pubkey_ne : ∀ k, P.render_pubkey k ≠ []
  xpub_ne : ∀ x, P.render_xpub x ≠ []
  pubkey_no_open : ∀ k, '[' ∉ P.render_pubkey k
  xpub_no_open : ∀ x, '[' ∉ P.render_xpub x
  pubkey_no_close : ∀ k, ']' ∉ P.render_pubkey k
  xpub_no_close : ∀ x, ']' ∉ P.render_xpub x
  xpub_no_slash : ∀ x, '/' ∉ P.render_xpub x
  pubkey_len : ∀ k, 66 ≤ (P.render_pubkey k).length
  xpub_len : ∀ x, 66 ≤ (P.render_xpub x).length
  pubkey_no_p : ∀ k, 'p' ∉ P.render_pubkey k
  xpub_has_pub : ∀ x, containsSub pubPat (P.render_xpub x) = true
  pubkey_pre : ∀ k, (P.render_pubkey k).take 2 = ['0', '2'] ∨
    (P.render_pubkey k).take 2 = ['0', '3'] ∨ (P.render_pubkey k).take 2 = ['0', '4']

/-- The corresponding properties of the WIF and xprv canonical text forms
(a WIF key is at most 52 bytes, an xprv strictly more). -/
structure SecPrimsOk {PrivKey Xprv : Type} (Q : SecPrims PrivKey Xprv) : Prop where
  wif_rt : ∀ k, Q.parse_wif (Q.render_wif k) = some k
  xprv_rt : ∀ x, Q.parse_xprv (Q.render_xprv x) = some x
  wif_printable : ∀ k, ∀ c ∈ Q.render_wif k, printable c
  xprv_printable : ∀ x, ∀ c ∈ Q.render_xprv x, printable c
  wif_ne : ∀ k, Q.render_wif k ≠ []
  xprv_ne : ∀ x, Q.render_xprv x ≠ []
  wif_no_open : ∀ k, '[' ∉ Q.render_wif k
  xprv_no_open : ∀ x, '[' ∉ Q.render_xprv x
  wif_no_close : ∀ k, ']' ∉ Q.render_wif k
  xprv_no_close : ∀ x, ']' ∉ Q.render_xprv x
  xprv_no_slash : ∀ x, '/' ∉ Q.render_xprv x
  wif_len : ∀ k, (Q.render_wif k).length ≤ 52
  xprv_len : ∀ x, 52 < (Q.render_xprv x).length

/-- A well-formed origin segment content (the text between `[` and the first
`]`): an 8-character hex fingerprint followed by parsable path steps. -/
def wfOriginContent (content : List Char) : Bool :=
  match splitOnChar '/' content with
  | [] => false
  | fpHex :: ps => (fpHex.length == 8) && (parseHex8 fpHex).isSome && (childList ps).isSome

/-!
## Theorems

Everything below is proof; no further definitions are introduced.
-/

theorem digitChar_spec : ∀ d < 10, (digitChar d).isDigit = true ∧ (digitChar d).toNat = 48 + d := by
  intro d hd
  interval_cases d <;> exact ⟨rfl, rfl⟩

theorem hexDigitVal_hexChar : ∀ d < 16, hexDigitVal (hexChar d) = some d := by
  intro d hd
  interval_cases d <;> rfl

theorem hexDigitVal_lt : ∀ c d, hexDigitVal c = some d → d < 16 := by
  intro c d h
  unfold hexDigitVal at h
  split at h
  · simp only [Option.some.injEq] at h; omega
  · split at h
    · simp only [Option.some.injEq] at h; omega
    · split at h
      · simp only [Option.some.injEq] at h; omega
      · exact absurd h (by simp)

theorem ofLE_toDecLE : ∀ n, ofLE 10 (toDecLE n) = n := by
  intro n
  induction n using Nat.strong_induction_on with
  | _ n ih =>
    match n with
    | 0 => simp [toDecLE, ofLE]
    | m + 1 =>
      rw [toDecLE, ofLE, ih ((m + 1) / 10) (Nat.div_lt_self (Nat.succ_pos m) (by norm_num))]
      omega

theorem ofLE_toHexLE : ∀ (w n : Nat), n < 16 ^ w → ofLE 16 (toHexLE w n) = n := by
  intro w
  induction w with
  | zero => intro n h; simp [toHexLE, ofLE]; omega
  | succ w ih =>
    intro n h
    have hdiv : n / 16 < 16 ^ w := by
      rw [pow_succ] at h
      exact (Nat.div_lt_iff_lt_mul (by norm_num)).mpr h
    rw [toHexLE, ofLE, ih (n / 16) hdiv]
    omega

theorem toDecLE_lt : ∀ n, ∀ d ∈ toDecLE n, d < 10 := by
  intro n
  induction n using Nat.strong_induction_on with
  | _ n ih =>
    match n with
    | 0 => intro d hd; simp [toDecLE] at hd
    | m + 1 =>
      intro d hd
      rw [toDecLE] at hd
      rcases List.mem_cons.mp hd with h | h
      · subst h; exact Nat.mod_lt _ (by norm_num)
      · exact ih ((m + 1) / 10) (Nat.div_lt_self (Nat.succ_pos m) (by norm_num)) d h

theorem toHexLE_lt : ∀ w n, ∀ d ∈ toHexLE w n, d < 16 := by
  intro w
  induction w with
  | zero => intro n d hd; simp [toHexLE] at hd
  | succ w ih =>
    intro n d hd
    rw [toHexLE] at hd
    rcases List.mem_cons.mp hd with h | h
    · subst h; exact Nat.mod_lt _ (by norm_num)
    · exact ih (n / 16) d h

theorem length_toHexLE : ∀ w n, (toHexLE w n).length = w := by
  intro w
  induction w with
  | zero => intro n; rfl
  | succ w ih => intro n; rw [toHexLE]; simp [ih]

theorem foldl_base_reverse (B : Nat) :
    ∀ (l : List Nat) (acc : Nat),
      List.foldl (fun a d => B * a + d) acc l.reverse = acc * B ^ l.length + ofLE B l := by
  intro l
  induction l with
  | nil => intro acc; simp [ofLE]
  | cons d ds ih =>
    intro acc
    rw [List.reverse_cons, List.foldl_append, ih]
    simp only [List.foldl, ofLE, List.length_cons]
    ring

/-! ### Splitting the derivation path into hardened prefix and normal suffix -/

theorem reverse_split (l : List ChildNumber) :
    l = hardPre l ++ pubSuf l := by
  unfold hardPre pubSuf
  conv_lhs => rw [← List.reverse_reverse l,
    ← List.takeWhile_append_dropWhile (p := ChildNumber.isNormal) (l := l.reverse)]
  rw [List.reverse_append]

theorem hardPre_len (l : List ChildNumber) :
    (hardPre l).length = l.length - (l.reverse.takeWhile ChildNumber.isNormal).length := by
  have h := congrArg List.length (reverse_split l)
  rw [List.length_append] at h
  have h2 : (pubSuf l).length = (l.reverse.takeWhile ChildNumber.isNormal).length := by
    unfold pubSuf; rw [List.length_reverse]
  omega

theorem take_sub_eq_hardPre (l : List ChildNumber) :
    l.take (l.length - (l.reverse.takeWhile ChildNumber.isNormal).length) = hardPre l := by
  have h1 : l.take (l.length - (l.reverse.takeWhile ChildNumber.isNormal).length) =
      (hardPre l ++ pubSuf l).take
        (l.length - (l.reverse.takeWhile ChildNumber.isNormal).length) := by
    rw [← reverse_split l]
  exact h1.trans (List.take_left' (hardPre_len l))

theorem drop_sub_eq_pubSuf (l : List ChildNumber) :
    l.drop (l.length - (l.reverse.takeWhile ChildNumber.isNormal).length) = pubSuf l := by
  have h1 : l.drop (l.length - (l.reverse.takeWhile ChildNumber.isNormal).length) =
      (hardPre l ++ pubSuf l).drop
        (l.length - (l.reverse.takeWhile ChildNumber.isNormal).length) := by
    rw [← reverse_split l]
  exact h1.trans (List.drop_left' (hardPre_len l))

theorem takeWhile_all {α : Type} (q : α → Bool) (a b : List α) (h : ∀ x ∈ a, q x = true) :
    (a ++ b).takeWhile q = a ++ b.takeWhile q := by
  induction a with
  | nil => simp
  | cons x xs ih =>
    rw [List.cons_append, List.takeWhile_cons, h x (by simp)]
    simp [ih (fun y hy => h y (by simp [hy]))]

theorem pubSuf_normal (l : List ChildNumber) : ∀ c ∈ pubSuf l, c.isNormal = true := by
  intro c hc
  unfold pubSuf at hc
  exact List.mem_takeWhile_imp (List.mem_reverse.mp hc)

theorem pubSuf_longest (l p s : List ChildNumber) (h : l = p ++ s)
    (hs : ∀ c ∈ s, c.isNormal = true) : s.length ≤ (pubSuf l).length := by
  have hrev : l.reverse = s.reverse ++ p.reverse := by rw [h, List.reverse_append]
  have : l.reverse.takeWhile ChildNumber.isNormal =
      s.reverse ++ p.reverse.takeWhile ChildNumber.isNormal := by
    rw [hrev]
    exact takeWhile_all _ _ _ (fun x hx => hs x (List.mem_reverse.mp hx))
  unfold pubSuf
  rw [List.length_reverse, this, List.length_append, List.length_reverse]
  omega

/-- C1: `as_public` splits `derivation_path` into the longest all-normal
suffix (`pubSuf`) and the rest (`hardPre`), derives the private key through
the latter, keeps only the former as the result's `derivation_path`,
reconciles the origin exactly as the spec describes, and preserves
`is_wildcard`. -/
theorem as_public_spec {Xprv Xpub : Type}
    (derive_priv : Xprv → List ChildNumber → Option Xprv)
    (from_private : Xprv → Xpub) (fingerprint : Xprv → Nat)
    (k : DescriptorXKey Xprv) (d : Xprv)
    (h : derive_priv k.xkey (hardPre k.derivation_path) = some d) :
    DescriptorXKey.as_public derive_priv from_private fingerprint k =
      .ok ⟨(match k.origin with
            | some (f, op) => some (f, op ++ hardPre k.derivation_path)
            | none =>
              if hardPre k.derivation_path = [] then none
              else some (fingerprint k.xkey, hardPre k.derivation_path)),
            from_private d, pubSuf k.derivation_path, k.is_wildcard⟩ ∧
    hardPre k.derivation_path ++ pubSuf k.derivation_path = k.derivation_path ∧
    (∀ c ∈ pubSuf k.derivation_path, c.isNormal = true) ∧
    (∀ p s, k.derivation_path = p ++ s → (∀ c ∈ s, c.isNormal = true) →
      s.length ≤ (pubSuf k.derivation_path).length) := by
  refine ⟨?_, (reverse_split k.derivation_path).symm, pubSuf_normal _, pubSuf_longest _⟩
  unfold DescriptorXKey.as_public
  dsimp only
  rw [take_sub_eq_hardPre, drop_sub_eq_pubSuf, h]
  cases ho : k.origin with
  | none =>
    cases hpre : hardPre k.derivation_path with
    | nil => simp [hpre]
    | cons a as => simp [hpre]
  | some pr =>
    obtain ⟨f, op⟩ := pr
    simp

/-- C1 witness: a concrete instantiation of `as_public_spec`, with toy BIP32
primitives on `Nat`. -/
theorem as_public_spec_witness :
    DescriptorXKey.as_public (fun (x : Nat) p => some (x + p.length)) (fun x => x + 1)
        (fun x => x * 10)
        (⟨none, 7, [.hardened 1, .normal 2], true⟩ : DescriptorXKey Nat) =
      .ok ⟨some (70, [.hardened 1]), 9, [.normal 2], true⟩ :=
  (as_public_spec (fun (x : Nat) p => some (x + p.length)) (fun x => x + 1) (fun x => x * 10)
    (⟨none, 7, [.hardened 1, .normal 2], true⟩ : DescriptorXKey Nat) 8 (by decide)).1

theorem ite_some_none_iff {α : Type} (c : Prop) [Decidable c] (x r : α) :
    ((if c then some x else none) = some r) ↔ (c ∧ r = x) := by
  split <;> rename_i hc <;> simp [hc, eq_comm]

/-- C2: `matches` compares the observed fingerprint with the reference
fingerprint (origin fingerprint, or the key's own), and the observed path —
with its last element removed when the key is a wildcard — with the
reference path (origin path plus `derivation_path`, or `derivation_path`
alone); it returns the truncated observed path exactly when both agree. -/
theorem matches_spec {K : Type} (fpFn : K → Nat) (k : DescriptorXKey K)
    (ofp : Nat) (opath r : List ChildNumber) :
    DescriptorXKey.matches fpFn k (ofp, opath) = some r ↔
      (ofp = (match k.origin with | some (f, _) => f | none => fpFn k.xkey) ∧
       (if k.is_wildcard then opath.dropLast else opath) =
         (match k.origin with
          | some (_, p) => p ++ k.derivation_path
          | none => k.derivation_path) ∧
       r = (if k.is_wildcard then opath.dropLast else opath)) := by
  obtain ⟨origin, xkey, dpath, w⟩ := k
  have hpe : (if w = true ∧ 0 < opath.length then
        opath.take (opath.length - 1) else opath) =
      (if w = true then opath.dropLast else opath) := by
    cases w with
    | false => simp
    | true =>
      cases opath with
      | nil => simp
      | cons a as => simp [List.dropLast_eq_take]
  rcases origin with _ | ⟨f, p⟩ <;>
  · simp only [DescriptorXKey.matches, hpe]
    rw [ite_some_none_iff]
    constructor
    · rintro ⟨⟨h1, h2⟩, h3⟩
      exact ⟨h1.symm, h2.symm, h3⟩
    · rintro ⟨h1, h2, h3⟩
      exact ⟨⟨h1.symm, h2.symm⟩, h3⟩

/-- C5: `derive` returns a `SinglePub` unchanged, a non-wildcard `XPub`
unchanged, and resolves a wildcard `XPub` by clearing the flag and appending
the child index to `derivation_path`. -/
theorem derive_spec {PubKey Xpub : Type} (i : ChildNumber) (hi : i.isNormal = true) :
    (∀ (origin : Option (Nat × List ChildNumber)) (key : PubKey),
      (DescriptorPublicKey.SinglePub origin key : DescriptorPublicKey PubKey Xpub).derive i =
        .SinglePub origin key) ∧
    (∀ xk : DescriptorXKey Xpub, xk.is_wildcard = false →
      (DescriptorPublicKey.XPub xk : DescriptorPublicKey PubKey Xpub).derive i = .XPub xk) ∧
    (∀ xk : DescriptorXKey Xpub, xk.is_wildcard = true →
      (DescriptorPublicKey.XPub xk : DescriptorPublicKey PubKey Xpub).derive i =
        .XPub ⟨xk.origin, xk.xkey, xk.derivation_path ++ [i], false⟩) := by
  refine ⟨fun origin key => rfl, fun xk hw => ?_, fun xk hw => ?_⟩
  · dsimp only [DescriptorPublicKey.derive]
    rw [hw]
    simp
  · dsimp only [DescriptorPublicKey.derive]
    rw [hw]
    simp

/-- C5 witness: `derive_spec` instantiated at child index 5 on each of the
three shapes of key. -/
theorem derive_spec_witness :
    ((DescriptorPublicKey.SinglePub none 0 : DescriptorPublicKey Nat Nat).derive (.normal 5) =
      .SinglePub none 0) ∧
    ((DescriptorPublicKey.XPub ⟨none, 3, [], false⟩ : DescriptorPublicKey Nat Nat).derive
        (.normal 5) = .XPub ⟨none, 3, [], false⟩) ∧
    ((DescriptorPublicKey.XPub ⟨none, 3, [.normal 1], true⟩ :
        DescriptorPublicKey Nat Nat).derive (.normal 5) =
      .XPub ⟨none, 3, [.normal 1, .normal 5], false⟩) := by
  have h := @derive_spec Nat Nat (ChildNumber.normal 5) (by decide)
  exact ⟨h.1 none 0, h.2.1 ⟨none, 3, [], false⟩ rfl, h.2.2 ⟨none, 3, [.normal 1], true⟩ rfl⟩

/-- C10: with an origin present, `matches` never consults the `xkey` field or
the fingerprint computation; two keys differing only there agree on every
observation. -/
theorem matches_ignores_xkey {K : Type} (f1 f2 : K → Nat) (o : Nat × List ChildNumber)
    (x1 x2 : K) (dp : List ChildNumber) (w : Bool) (ks : Nat × List ChildNumber) :
    DescriptorXKey.matches f1 ⟨some o, x1, dp, w⟩ ks =
      DescriptorXKey.matches f2 ⟨some o, x2, dp, w⟩ ks := by
  obtain ⟨f, p⟩ := o
  rfl

/-! ### Lemmas about `splitOnChar` -/

theorem splitOnChar_ne_nil (sep : Char) (l : List Char) : splitOnChar sep l ≠ [] := by
  induction l with
  | nil => simp [splitOnChar]
  | cons c cs ih =>
    simp only [splitOnChar]
    split
    · simp
    · split
      · simp
      · simp

theorem splitOnChar_not_mem (sep : Char) (l : List Char) (h : sep ∉ l) :
    splitOnChar sep l = [l] := by
  induction l with
  | nil => rfl
  | cons c cs ih =>
    have hc : ¬(c = sep) := fun he => h (by simp [he])
    have hcs : sep ∉ cs := fun hm => h (by simp [hm])
    simp [splitOnChar, ih hcs, hc]

theorem splitOnChar_append (sep : Char) (a b : List Char) (ha : sep ∉ a) :
    splitOnChar sep (a ++ sep :: b) = a :: splitOnChar sep b := by
  induction a with
  | nil => simp [splitOnChar]
  | cons c cs ih =>
    have hc : ¬(c = sep) := fun he => ha (by simp [he])
    have hcs : sep ∉ cs := fun hm => ha (by simp [hm])
    simp [splitOnChar, ih hcs, hc]

theorem splitOnChar_mem_two (sep : Char) (l : List Char) (h : sep ∈ l) :
    ∃ a b rs, splitOnChar sep l = a :: b :: rs := by
  induction l with
  | nil => simp at h
  | cons c cs ih =>
    by_cases hc : c = sep
    · subst hc
      cases hsp : splitOnChar c cs with
      | nil => exact absurd hsp (splitOnChar_ne_nil _ _)
      | cons r rs => exact ⟨[], r, rs, by simp [splitOnChar, hsp]⟩
    · have hm : sep ∈ cs := by
        rcases List.mem_cons.mp h with h1 | h1
        · exact absurd h1.symm hc
        · exact h1
      obtain ⟨a, b, rs, hab⟩ := ih hm
      exact ⟨c :: a, b, rs, by simp [splitOnChar, hab, hc]⟩

/-! ### C9: the 66-character length gate -/

/-- C9 (amended): any input whose UTF-8 byte length is below 66 is rejected
by the public-key parser with the too-short cause, before anything else. -/
theorem too_short_gate {PubKey Xpub : Type} (P : PubPrims PubKey Xpub) (s : List Char)
    (h : utf8Len s < 66) :
    DescriptorPublicKey.from_str P s = .error .keyTooShort := by
  unfold DescriptorPublicKey.from_str
  rw [if_pos h]

/-- C9 witness: the two-character input `02`. -/
theorem too_short_gate_witness :
    DescriptorPublicKey.from_str toyPubPrims ['0', '2'] = .error .keyTooShort :=
  too_short_gate toyPubPrims ['0', '2'] (by decide)

/-- C9 counterexample to the claim as stated: sixty copies of the character
`U+00E9` form an input of 60 characters (< 66), yet its UTF-8 byte length is
120, so the parser passes the length gate and rejects it with the
unprintable-character cause instead of the too-short cause. -/
theorem too_short_gate_counterexample :
    (List.replicate 60 (Char.ofNat 233)).length = 60 ∧
    DescriptorPublicKey.from_str toyPubPrims (List.replicate 60 (Char.ofNat 233)) =
      .error .unprintableChar ∧
    Err.unprintableChar ≠ Err.keyTooShort := by
  refine ⟨by decide, by decide, by decide⟩

/-! ### C6: the WIF branch of the secret-key parser drops the origin -/

/-- C6: evaluated on `[aabbccdd]` followed by a 51-character WIF body, the
origin sub-parser returns the parsed origin `(0xaabbccdd, [])`, yet
`DescriptorSecretKey::from_str` returns a `SinglePriv` whose `origin` field
is `none` — the parsed origin is discarded by the WIF branch. -/
theorem wif_origin_dropped :
    parse_xkey_origin ('[' :: fpSampleStr ++ [']'] ++ toyWifStr) =
      .ok (toyWifStr, some (2864434397, [])) ∧
    DescriptorSecretKey.from_str toySecPrims ('[' :: fpSampleStr ++ [']'] ++ toyWifStr) =
      .ok (.SinglePriv none ()) := by
  refine ⟨by decide, by decide⟩

/-! ### C7: a hardened step after the wildcard -/

/-- C7 (amended): any token at all after the `*` marker — in particular a
hardened index — makes the step parser fail with the
wildcard-not-in-final-position cause, which is distinct from the
hardened-derivation-unsupported cause. -/
theorem step_after_wildcard_amended :
    (∀ (toks : List (List Char)) (p : List Char) (rest : List (List Char)),
      (∀ t ∈ toks, (childNumberFromStr t).isSome = true) →
      parseDerivSteps (toks ++ ['*'] :: p :: rest) false = .error .wildcardNotLast) ∧
    Err.wildcardNotLast ≠ Err.hardenedDerivationUnsupported := by
  constructor
  · intro toks p rest h
    induction toks with
    | nil =>
      rw [List.nil_append, parseDerivSteps, if_pos ⟨rfl, rfl⟩, parseDerivSteps,
        if_neg (by simp), if_neg (by simp), if_pos rfl]
    | cons t ts ih =>
      have ht := h t (List.mem_cons_self t ts)
      have h1 : t ≠ ['*'] := by rintro rfl; exact absurd ht (by decide)
      have h2 : t ≠ ['*', quoteChar] := by rintro rfl; exact absurd ht (by decide)
      rw [List.cons_append, parseDerivSteps,
        if_neg (by simp [h1]), if_neg (by simp [h2]), if_neg (by simp)]
      obtain ⟨c, hc⟩ := Option.isSome_iff_exists.mp ht
      rw [hc, ih (fun x hx => h x (List.mem_cons_of_mem t hx))]
  · decide

/-- C7 witness for the amended claim: a hardened index `2'` directly after
`*`. -/
theorem step_after_wildcard_amended_witness :
    parseDerivSteps ([['1']] ++ ['*'] :: ['2', quoteChar] :: []) false =
      .error .wildcardNotLast :=
  step_after_wildcard_amended.1 [['1']] ['2', quoteChar] [] (by decide)

/-- C7 counterexample to the claim as stated: on a full input whose key body
has the hardened step `2'` after `*`, the parser reports the
wildcard-position cause, not the hardened-derivation cause named by the
claim. -/
theorem step_after_wildcard_counterexample :
    DescriptorPublicKey.from_str toyPubPrims (toyXpubStr ++ ['/', '*', '/', '2', quoteChar]) =
      .error .wildcardNotLast ∧
    Err.wildcardNotLast ≠ Err.hardenedDerivationUnsupported := by
  refine ⟨by decide, by decide⟩

/-! ### C8: multiple closing brackets -/

/-- C8 (amended): on printable input, once a well-formed origin segment has
been closed by the first `]`, any further `]` in the remainder makes
`parse_xkey_origin` fail with the multiple-closing-brackets cause.  (On
input with a byte outside `[20, 127]` the unprintable-character gate fires
first; see the counterexample.) -/
theorem multiple_brackets_amended (content rest : List Char)
    (hpr : ∀ c ∈ '[' :: content ++ ']' :: rest, printable c)
    (hnc : ']' ∉ content)
    (hwf : wfOriginContent content = true)
    (hr : ']' ∈ rest) :
    parse_xkey_origin ('[' :: content ++ ']' :: rest) = .error .multipleClosingBrackets := by
  unfold parse_xkey_origin
  have hany : (('[' :: content ++ ']' :: rest).any fun c => c.toNat < 20 ∨ 127 < c.toNat) =
      false := by
    simp only [List.any_eq_false, decide_eq_true_eq]
    intro c hcm
    have hp := hpr c hcm
    unfold printable at hp
    omega
  rw [if_neg (by rw [hany]; simp), if_neg (by simp),
    if_pos (show ('[' :: content ++ ']' :: rest).head? = some '[' from rfl),
    show ('[' :: content ++ ']' :: rest).tail = content ++ ']' :: rest from rfl,
    splitOnChar_append ']' content rest hnc]
  obtain ⟨a, b, rs, hsp2⟩ := splitOnChar_mem_two ']' rest hr
  rw [hsp2]
  dsimp only
  cases hsp : splitOnChar '/' content with
  | nil => exact absurd hsp (splitOnChar_ne_nil _ _)
  | cons fpHex ps =>
    unfold wfOriginContent at hwf
    rw [hsp] at hwf
    simp only [Bool.and_eq_true, beq_iff_eq, Option.isSome_iff_exists] at hwf
    obtain ⟨⟨hlen, fp, hfp⟩, op, hop⟩ := hwf
    dsimp only
    rw [if_neg (by simp [hlen])]
    simp [hfp, hop]

/-- C8 witness for the amended claim: `[aabbccdd]x]y`. -/
theorem multiple_brackets_amended_witness :
    parse_xkey_origin ('[' :: fpSampleStr ++ ']' :: ['x', ']', 'y']) =
      .error .multipleClosingBrackets :=
  multiple_brackets_amended fpSampleStr ['x', ']', 'y'] (by decide) (by decide) (by decide)
    (by decide)

/-- C8 counterexample to the claim as stated: with an unprintable byte
(`0x0A`) in the remainder, an input satisfying all of the claim's conditions
(well-formed origin, second `]` after the first) is rejected with the
unprintable-character cause rather than the multiple-closing-brackets
cause, so the "arbitrary byte sequences" part of the claim fails. -/
theorem multiple_brackets_counterexample :
    parse_xkey_origin ('[' :: fpSampleStr ++ ']' :: ['x', ']', Char.ofNat 10]) =
      .error .unprintableChar ∧
    Err.unprintableChar ≠ Err.multipleClosingBrackets ∧
    wfOriginContent fpSampleStr = true ∧
    ']' ∈ ['x', ']', Char.ofNat 10] := by
  refine ⟨by decide, by decide, by decide, by decide⟩

/-! ### C4: hardened steps on a public-typed key -/

theorem parse_xkey_deriv_pub_normal {X : Type} (parseX : List Char → Option X)
    (kd : List Char) (x : X) (dpath : List ChildNumber) (w : Bool)
    (h : parse_xkey_deriv parseX false kd = .ok (x, dpath, w)) :
    dpath.all ChildNumber.isNormal = true := by
  unfold parse_xkey_deriv at h
  split at h
  · exact absurd h (by simp)
  · split at h
    · exact absurd h (by simp)
    · split at h
      · exact absurd h (by simp)
      · split at h
        · exact absurd h (by simp)
        · rename_i hcond
          simp only [not_and, Bool.not_eq_false] at hcond
          simp only [Except.ok.injEq, Prod.mk.injEq] at h
          obtain ⟨-, h2, -⟩ := h
          rw [← h2]
          exact hcond trivial

/-- C4: (a) the public-key parser never produces an `XPub` whose pending
`derivation_path` has a hardened step; (b) whenever the extended-key branch
is taken and the step scan succeeds with some hardened step present, the
whole parse is rejected with the hardened-derivation-unsupported cause. -/
theorem hardened_public_rejected {PubKey Xpub : Type} (P : PubPrims PubKey Xpub) :
    (∀ (s : List Char) (k : DescriptorXKey Xpub),
      DescriptorPublicKey.from_str P s = .ok (.XPub k) →
      ∀ c ∈ k.derivation_path, c.isNormal = true) ∧
    (∀ (s keyPart : List Char) (origin : Option (Nat × List ChildNumber)) (b : List Char)
        (rest : List (List Char)) (x : Xpub) (dpath : List ChildNumber) (w : Bool),
      ¬ utf8Len s < 66 →
      parse_xkey_origin s = .ok (keyPart, origin) →
      containsSub pubPat keyPart = true →
      splitOnChar '/' keyPart = b :: rest →
      P.parse_xpub b = some x →
      parseDerivSteps rest false = .ok (dpath, w) →
      dpath.all ChildNumber.isNormal = false →
      DescriptorPublicKey.from_str P s = .error .hardenedDerivationUnsupported) := by
  constructor
  · intro s k h
    unfold DescriptorPublicKey.from_str at h
    split at h
    · exact absurd h (by simp)
    · split at h
      · exact absurd h (by simp)
      · split at h
        · split at h
          · exact absurd h (by simp)
          · rename_i hderiv
            simp only [Except.ok.injEq, DescriptorPublicKey.XPub.injEq] at h
            rw [← h]
            intro c hc
            have hall := parse_xkey_deriv_pub_normal P.parse_xpub _ _ _ _ hderiv
            exact List.all_eq_true.mp hall c hc
        · split at h
          · exact absurd h (by simp)
          · split at h
            · exact absurd h (by simp)
            · exact absurd h (by simp)
  · intro s keyPart origin b rest x dpath w h66 horigin hcontains hsplit hx hsteps hhard
    unfold DescriptorPublicKey.from_str
    rw [if_neg h66, horigin]
    dsimp only
    rw [if_pos hcontains]
    unfold parse_xkey_deriv
    rw [hsplit]
    dsimp only
    rw [hx]
    dsimp only
    rw [hsteps]
    dsimp only
    rw [if_pos ⟨rfl, hhard⟩]

/-- C4 witness: part (a) applied to the sample accepted input, and part (b)
applied to the input `xpub…AA/1'`, whose step scan yields the hardened step
`1'`. -/
theorem hardened_public_rejected_witness :
    (ChildNumber.normal 1).isNormal = true ∧
    DescriptorPublicKey.from_str toyPubPrims (toyXpubStr ++ ['/', '1', quoteChar]) =
      .error .hardenedDerivationUnsupported := by
  constructor
  · exact (hardened_public_rejected toyPubPrims).1 sampleXpubInput
      ⟨some (2864434397, []), (), [.normal 1], true⟩ (by decide) (.normal 1) (by decide)
  · exact (hardened_public_rejected toyPubPrims).2 (toyXpubStr ++ ['/', '1', quoteChar])
      (toyXpubStr ++ ['/', '1', quoteChar]) none toyXpubStr [['1', quoteChar]] ()
      [.hardened 1] false (by decide) (by decide) (by decide) (by decide) (by decide)
      (by decide) (by decide)

/-! ### C3 groundwork: character classes of the rendered text -/

theorem digitChar_facts : ∀ d < 10, printable (digitChar d) ∧ digitChar d ≠ ']' ∧
    digitChar d ≠ '/' ∧ digitChar d ≠ '*' ∧ digitChar d ≠ quoteChar ∧ digitChar d ≠ 'h' ∧
    digitChar d ≠ '+' ∧ digitChar d ≠ '[' ∧ (digitChar d).isDigit = true := by
  intro d hd
  interval_cases d <;> decide

theorem hexChar_facts : ∀ d < 16, printable (hexChar d) ∧ hexChar d ≠ ']' ∧ hexChar d ≠ '/' := by
  intro d hd
  interval_cases d <;> decide

theorem toDecLE_ne_nil (n : Nat) (h : n ≠ 0) : toDecLE n ≠ [] := by
  match n with
  | 0 => exact absurd rfl h
  | m + 1 => rw [toDecLE]; simp

theorem renderDec_ne_nil (n : Nat) : renderDec n ≠ [] := by
  unfold renderDec
  split
  · simp
  · rename_i h
    simp only [ne_eq, List.map_eq_nil_iff, List.reverse_eq_nil_iff]
    exact toDecLE_ne_nil n h

theorem renderDec_chars : ∀ n, ∀ c ∈ renderDec n, printable c ∧ c ≠ ']' ∧ c ≠ '/' ∧
    c ≠ '*' ∧ c ≠ quoteChar ∧ c ≠ 'h' ∧ c ≠ '+' ∧ c ≠ '[' ∧ c.isDigit = true := by
  intro n c hc
  unfold renderDec at hc
  split at hc
  · simp only [List.mem_singleton] at hc
    subst hc
    decide
  · simp only [List.mem_map, List.mem_reverse] at hc
    obtain ⟨d, hd, rfl⟩ := hc
    exact digitChar_facts d (toDecLE_lt n d hd)

theorem renderChild_chars : ∀ ch, ∀ c ∈ renderChild ch,
    printable c ∧ c ≠ ']' ∧ c ≠ '/' ∧ c ≠ '[' := by
  intro ch c hc
  cases ch with
  | normal i =>
    obtain ⟨h1, h2, h3, -, -, -, -, h8, -⟩ := renderDec_chars i c hc
    exact ⟨h1, h2, h3, h8⟩
  | hardened i =>
    rcases List.mem_append.mp hc with h | h
    · obtain ⟨h1, h2, h3, -, -, -, -, h8, -⟩ := renderDec_chars i c h
      exact ⟨h1, h2, h3, h8⟩
    · simp only [List.mem_singleton] at h
      subst h
      decide

theorem renderHex8_chars : ∀ n, ∀ c ∈ renderHex8 n, printable c ∧ c ≠ ']' ∧ c ≠ '/' := by
  intro n c hc
  unfold renderHex8 at hc
  simp only [List.mem_map, List.mem_reverse] at hc
  obtain ⟨d, hd, rfl⟩ := hc
  exact hexChar_facts d (toHexLE_lt 8 n d hd)

theorem renderPath_chars : ∀ p, ∀ c ∈ renderPath p,
    printable c ∧ c ≠ ']' ∧ c ≠ '[' := by
  intro p c hc
  unfold renderPath at hc
  simp only [List.mem_flatten, List.mem_map] at hc
  obtain ⟨g, ⟨ch, hch, rfl⟩, hcg⟩ := hc
  rcases List.mem_cons.mp hcg with h | h
  · subst h
    decide
  · have h2 := renderChild_chars ch c h
    exact ⟨h2.1, h2.2.1, h2.2.2.2⟩

theorem utf8Len_eq_length (l : List Char) (h : ∀ c ∈ l, printable c) :
    utf8Len l = l.length := by
  induction l with
  | nil => rfl
  | cons c cs ih =>
    have hp := h c (by simp)
    unfold printable at hp
    have h1 : utf8Size c = 1 := by
      unfold utf8Size
      rw [if_pos (by omega)]
    simp only [utf8Len, List.map_cons, List.sum_cons] at *
    rw [h1, ih (fun x hx => h x (by simp [hx])), List.length_cons]
    omega

/-! ### C3 groundwork: decimal and hex round trips -/

theorem foldl_digit_vals : ∀ (ds : List Nat) (acc : Nat), (∀ d ∈ ds, d < 10) →
    List.foldl (fun a c => 10 * a + (c.toNat - 48)) acc (ds.map digitChar) =
      List.foldl (fun a d => 10 * a + d) acc ds := by
  intro ds
  induction ds with
  | nil => intro acc h; rfl
  | cons d rest ih =>
    intro acc h
    have hd := (digitChar_spec d (h d (by simp))).2
    simp only [List.map_cons, List.foldl_cons, hd]
    rw [show 48 + d - 48 = d from by omega]
    exact ih _ (fun x hx => h x (by simp [hx]))

theorem parseU32_renderDec (n : Nat) (h : n ≤ 4294967295) :
    parseU32 (renderDec n) = some n := by
  by_cases hn : n = 0
  · subst hn; decide
  · have hchars := renderDec_chars n
    unfold parseU32
    have hhead : (renderDec n).head? ≠ some '+' := by
      cases hr : renderDec n with
      | nil => simp
      | cons c cs =>
        simp only [List.head?_cons, ne_eq, Option.some.injEq]
        exact (hchars c (by rw [hr]; simp)).2.2.2.2.2.2.1
    rw [if_neg hhead]
    dsimp only
    rw [if_pos ⟨renderDec_ne_nil n, List.all_eq_true.mpr
      (fun c hc => (hchars c hc).2.2.2.2.2.2.2.2)⟩]
    have hfold : List.foldl (fun a c => 10 * a + (c.toNat - 48)) 0 (renderDec n) = n := by
      unfold renderDec
      rw [if_neg hn, foldl_digit_vals _ 0
        (fun d hd => toDecLE_lt n d (List.mem_reverse.mp hd)),
        foldl_base_reverse 10 (toDecLE n) 0, ofLE_toDecLE]
      omega
    rw [hfold, if_pos h]

theorem hexVals_map (ds : List Nat) (h : ∀ d ∈ ds, d < 16) :
    parseHex8.hexVals (ds.map hexChar) = some ds := by
  induction ds with
  | nil => rfl
  | cons d rest ih =>
    simp only [List.map_cons, parseHex8.hexVals, hexDigitVal_hexChar d (h d (by simp)),
      ih (fun x hx => h x (by simp [hx]))]

theorem parseHex8_renderHex8 (n : Nat) (h : n < 4294967296) :
    parseHex8 (renderHex8 n) = some n := by
  unfold parseHex8 renderHex8
  rw [hexVals_map _ (fun d hd => toHexLE_lt 8 n d (List.mem_reverse.mp hd))]
  dsimp only
  rw [foldl_base_reverse 16 (toHexLE 8 n) 0, ofLE_toHexLE 8 n (by norm_num; omega)]
  simp

theorem length_renderHex8 (n : Nat) : (renderHex8 n).length = 8 := by
  unfold renderHex8
  rw [List.length_map, List.length_reverse, length_toHexLE]

/-! ### C3 groundwork: child-number and path round trips -/

theorem childNumberFromStr_renderChild (ch : ChildNumber) (h : wfChild ch) :
    childNumberFromStr (renderChild ch) = some ch := by
  cases ch with
  | normal i =>
    have hi : i < 2147483648 := h
    unfold childNumberFromStr renderChild
    have hlast : ¬((renderDec i).getLast? = some quoteChar ∨ (renderDec i).getLast? = some 'h') := by
      rintro (hg | hg) <;>
      · rw [List.getLast?_eq_getLast (renderDec i) (renderDec_ne_nil i)] at hg
        simp only [Option.some.injEq] at hg
        have hmem := List.getLast_mem (renderDec_ne_nil i)
        rw [hg] at hmem
        have := renderDec_chars i _ hmem
        simp_all
    rw [if_neg hlast, parseU32_renderDec i (by omega)]
    dsimp only
    rw [if_pos hi]
  | hardened i =>
    have hi : i < 2147483648 := h
    unfold childNumberFromStr renderChild
    rw [if_pos (Or.inl (List.getLast?_concat _)), List.dropLast_concat,
      parseU32_renderDec i (by omega)]
    dsimp only
    rw [if_pos hi]

theorem childList_map_renderChild (p : List ChildNumber) (h : ∀ c ∈ p, wfChild c) :
    childList (p.map renderChild) = some p := by
  induction p with
  | nil => rfl
  | cons c cs ih =>
    simp only [List.map_cons, childList, childNumberFromStr_renderChild c (h c (by simp)),
      ih (fun x hx => h x (by simp [hx]))]

theorem parseDerivSteps_render (dp : List ChildNumber) (w : Bool) (h : ∀ c ∈ dp, wfChild c) :
    parseDerivSteps (dp.map renderChild ++ (if w then [['*']] else [])) false = .ok (dp, w) := by
  induction dp with
  | nil =>
    cases w with
    | false => rfl
    | true =>
      rw [List.map_nil, List.nil_append, if_pos rfl, parseDerivSteps, if_pos ⟨rfl, rfl⟩]
      rfl
  | cons c cs ih =>
    have hsome := childNumberFromStr_renderChild c (h c (by simp))
    have hstar : childNumberFromStr ['*'] = none := by decide
    have hstarq : childNumberFromStr ['*', quoteChar] = none := by decide
    have h1 : renderChild c ≠ ['*'] := fun he => by
      rw [he, hstar] at hsome; exact Option.noConfusion hsome
    have h2 : renderChild c ≠ ['*', quoteChar] := fun he => by
      rw [he, hstarq] at hsome; exact Option.noConfusion hsome
    rw [List.map_cons, List.cons_append, parseDerivSteps, if_neg (by simp [h1]),
      if_neg (by simp [h2]), if_neg (by simp), hsome,
      ih (fun x hx => h x (by simp [hx]))]

theorem splitOnChar_flatten (sep : Char) : ∀ (gs : List (List Char)) (a : List Char),
    sep ∉ a → (∀ g ∈ gs, sep ∉ g) →
    splitOnChar sep (a ++ (gs.map (fun g => sep :: g)).flatten) = a :: gs := by
  intro gs
  induction gs with
  | nil =>
    intro a ha _
    simp [splitOnChar_not_mem sep a ha]
  | cons g rest ih =>
    intro a ha hgs
    rw [List.map_cons, List.flatten_cons,
      show ((sep :: g) ++ (rest.map (fun x => sep :: x)).flatten) =
        sep :: (g ++ (rest.map (fun x => sep :: x)).flatten) from rfl,
      show a ++ sep :: (g ++ (rest.map (fun x => sep :: x)).flatten) =
        a ++ sep :: (g ++ (rest.map (fun x => sep :: x)).flatten) from rfl,
      splitOnChar_append sep a _ ha,
      ih g (hgs g (by simp)) (fun x hx => hgs x (by simp [hx]))]

theorem renderPath_flatten (p : List ChildNumber) :
    renderPath p = ((p.map renderChild).map (fun g => '/' :: g)).flatten := by
  unfold renderPath
  rw [List.map_map]
  rfl

theorem any_unprintable_false (l : List Char) (h : ∀ c ∈ l, printable c) :
    (l.any fun c => c.toNat < 20 ∨ 127 < c.toNat) = false := by
  simp only [List.any_eq_false, decide_eq_true_eq]
  intro c hcm
  have hp := h c hcm
  unfold printable at hp
  omega

theorem parse_xkey_origin_render (o : Option (Nat × List ChildNumber)) (kp : List Char)
    (hwf : wfOrigin o) (hne : kp ≠ []) (hhead : kp.head? ≠ some '[')
    (hpr : ∀ c ∈ kp, printable c) (hrb : ']' ∉ kp) :
    parse_xkey_origin (renderOrigin o ++ kp) = .ok (kp, o) := by
  cases o with
  | none =>
    rw [show renderOrigin none ++ kp = kp from by simp [renderOrigin]]
    unfold parse_xkey_origin
    rw [if_neg (by rw [any_unprintable_false kp hpr]; simp), if_neg hne, if_neg hhead]
  | some pr =>
    obtain ⟨fp, path⟩ := pr
    obtain ⟨hfp, hpath⟩ := hwf
    have hprint : ∀ c ∈ ('[' :: ((renderHex8 fp ++ renderPath path) ++ ']' :: kp)),
        printable c := by
      intro c hc
      simp only [List.mem_cons, List.mem_append, List.mem_cons] at hc
      rcases hc with rfl | (h1 | h1) | rfl | h1
      · decide
      · exact (renderHex8_chars fp c h1).1
      · exact (renderPath_chars path c h1).1
      · decide
      · exact hpr c h1
    rw [show renderOrigin (some (fp, path)) ++ kp =
      '[' :: ((renderHex8 fp ++ renderPath path) ++ ']' :: kp) from by simp [renderOrigin]]
    unfold parse_xkey_origin
    rw [if_neg (by rw [any_unprintable_false _ hprint]; simp), if_neg (by simp),
      if_pos (show ('[' :: ((renderHex8 fp ++ renderPath path) ++ ']' :: kp)).head? =
        some '[' from rfl),
      show ('[' :: ((renderHex8 fp ++ renderPath path) ++ ']' :: kp)).tail =
        (renderHex8 fp ++ renderPath path) ++ ']' :: kp from rfl,
      splitOnChar_append ']' _ kp (by
        intro hmem
        rcases List.mem_append.mp hmem with h1 | h1
        · exact absurd rfl (renderHex8_chars fp ']' h1).2.1
        · exact absurd rfl (renderPath_chars path ']' h1).2.1),
      splitOnChar_not_mem ']' kp hrb]
    dsimp only
    rw [renderPath_flatten, splitOnChar_flatten '/' (path.map renderChild) (renderHex8 fp)
      (fun hmem => absurd rfl (renderHex8_chars fp '/' hmem).2.2)
      (by
        intro g hg hmem
        obtain ⟨ch, hch, rfl⟩ := List.mem_map.mp hg
        exact absurd rfl (renderChild_chars ch '/' hmem).2.2.1)]
    dsimp only
    rw [if_neg (by rw [length_renderHex8]; simp), parseHex8_renderHex8 fp hfp]
    dsimp only
    rw [childList_map_renderChild path hpath]
    dsimp only
    rw [if_neg (by simp)]

/-! ### C3 groundwork: substring search and head facts -/

theorem isPre_append (pat : List Char) : ∀ (a b : List Char),
    isPre pat a = true → isPre pat (a ++ b) = true := by
  induction pat with
  | nil => intro a b _; rfl
  | cons p ps ih =>
    intro a b h
    cases a with
    | nil => exact absurd h (by simp [isPre])
    | cons x xs =>
      simp only [isPre, Bool.and_eq_true, decide_eq_true_eq] at h
      simp only [List.cons_append, isPre, Bool.and_eq_true, decide_eq_true_eq]
      exact ⟨h.1, ih xs b h.2⟩

theorem containsSub_nil_pat : ∀ l, containsSub [] l = true := by
  intro l
  cases l <;> rfl

theorem containsSub_append_left (pat a b : List Char) (h : containsSub pat a = true) :
    containsSub pat (a ++ b) = true := by
  induction a with
  | nil =>
    cases pat with
    | nil => exact containsSub_nil_pat b
    | cons p ps => exact absurd h (by simp [containsSub, isPre])
  | cons x xs ih =>
    simp only [containsSub, Bool.or_eq_true] at h
    simp only [List.cons_append, containsSub, Bool.or_eq_true]
    rcases h with h | h
    · exact Or.inl (by
        have := isPre_append pat (x :: xs) b h
        simpa using this)
    · exact Or.inr (ih h)

theorem containsSub_mem_p (l : List Char) (h : containsSub pubPat l = true) : 'p' ∈ l := by
  induction l with
  | nil => exact absurd h (by decide)
  | cons c cs ih =>
    simp only [containsSub, Bool.or_eq_true] at h
    rcases h with h | h
    · simp only [pubPat, isPre, Bool.and_eq_true, decide_eq_true_eq] at h
      exact List.mem_cons.mpr (Or.inl h.1)
    · exact List.mem_cons.mpr (Or.inr (ih h))

theorem not_containsSub_of_no_p (l : List Char) (h : 'p' ∉ l) :
    containsSub pubPat l = false := by
  cases hc : containsSub pubPat l with
  | false => rfl
  | true => exact absurd (containsSub_mem_p l hc) h

theorem head_not_bracket (a b : List Char) (hne : a ≠ []) (hnb : '[' ∉ a) :
    (a ++ b).head? ≠ some '[' := by
  cases a with
  | nil => exact absurd rfl hne
  | cons c cs =>
    simp only [List.cons_append, List.head?_cons, ne_eq, Option.some.injEq]
    intro h
    exact hnb (by simp [h])

theorem head_not_bracket' (a : List Char) (hne : a ≠ []) (hnb : '[' ∉ a) :
    a.head? ≠ some '[' := by
  have := head_not_bracket a [] hne hnb
  simpa using this

theorem renderOrigin_printable : ∀ o, ∀ c ∈ renderOrigin o, printable c := by
  intro o c hc
  cases o with
  | none => simp [renderOrigin] at hc
  | some pr =>
    obtain ⟨fp, path⟩ := pr
    simp only [renderOrigin, List.mem_cons, List.mem_append, List.mem_singleton] at hc
    rcases hc with (rfl | h1 | h1) | rfl | h1
    · decide
    · exact (renderHex8_chars fp c h1).1
    · exact (renderPath_chars path c h1).1
    · decide
    · simp at h1

theorem renderPath_wc_flatten (dpath : List ChildNumber) (w : Bool) :
    renderPath dpath ++ (if w then ['/', '*'] else []) =
      ((dpath.map renderChild ++ (if w then [['*']] else [])).map
        (fun g => '/' :: g)).flatten := by
  cases w with
  | false => simp [renderPath_flatten]
  | true => simp [renderPath_flatten]

/-! ### C3 groundwork: what a successful parse guarantees -/

theorem childNumberFromStr_wf (p : List Char) (c : ChildNumber)
    (h : childNumberFromStr p = some c) : wfChild c := by
  unfold childNumberFromStr at h
  split at h <;>
  · split at h
    · split at h
      · rename_i hlt
        simp only [Option.some.injEq] at h
        subst h
        exact hlt
      · exact Option.noConfusion h
    · exact Option.noConfusion h

theorem childList_wf : ∀ (ps : List (List Char)) (l : List ChildNumber),
    childList ps = some l → ∀ c ∈ l, wfChild c := by
  intro ps
  induction ps with
  | nil =>
    intro l h c hc
    simp only [childList, Option.some.injEq] at h
    subst h
    simp at hc
  | cons p rest ih =>
    intro l h c hc
    unfold childList at h
    split at h
    · rename_i c0 cs0 hc0 hcs0
      simp only [Option.some.injEq] at h
      subst h
      rcases List.mem_cons.mp hc with rfl | hm
      · exact childNumberFromStr_wf p c hc0
      · exact ih cs0 hcs0 c hm
    · exact Option.noConfusion h

theorem hexVals_sound : ∀ (l : List Char) (ds : List Nat),
    parseHex8.hexVals l = some ds → ds.length = l.length ∧ ∀ d ∈ ds, d < 16 := by
  intro l
  induction l with
  | nil =>
    intro ds h
    simp only [parseHex8.hexVals, Option.some.injEq] at h
    subst h
    simp
  | cons c cs ih =>
    intro ds h
    unfold parseHex8.hexVals at h
    split at h
    · rename_i d ds0 hd hds0
      simp only [Option.some.injEq] at h
      subst h
      obtain ⟨hlen, hall⟩ := ih ds0 hds0
      refine ⟨by simp [hlen], ?_⟩
      intro x hx
      rcases List.mem_cons.mp hx with rfl | hm
      · exact hexDigitVal_lt c x hd
      · exact hall x hm
    · exact Option.noConfusion h

theorem foldl_hex_lt : ∀ (ds : List Nat) (acc : Nat), (∀ d ∈ ds, d < 16) →
    List.foldl (fun a d => 16 * a + d) acc ds < (acc + 1) * 16 ^ ds.length := by
  intro ds
  induction ds with
  | nil => intro acc _; simp
  | cons d rest ih =>
    intro acc h
    have hd : d < 16 := h d (by simp)
    have hstep := ih (16 * acc + d) (fun x hx => h x (by simp [hx]))
    simp only [List.foldl_cons, List.length_cons]
    calc List.foldl (fun a d => 16 * a + d) (16 * acc + d) rest
        < (16 * acc + d + 1) * 16 ^ rest.length := hstep
      _ ≤ ((acc + 1) * 16) * 16 ^ rest.length := by
          apply Nat.mul_le_mul_right
          omega
      _ = (acc + 1) * 16 ^ (rest.length + 1) := by ring

theorem parseHex8_lt (l : List Char) (n : Nat) (h : parseHex8 l = some n) :
    n < 16 ^ l.length := by
  unfold parseHex8 at h
  split at h
  · rename_i ds hds
    simp only [Option.some.injEq] at h
    subst h
    obtain ⟨hlen, hall⟩ := hexVals_sound l ds hds
    have := foldl_hex_lt ds 0 hall
    rw [hlen] at this
    simpa using this
  · exact Option.noConfusion h

theorem parseDerivSteps_wf : ∀ (ps : List (List Char)) (w : Bool) (dp : List ChildNumber)
    (wOut : Bool), parseDerivSteps ps w = .ok (dp, wOut) → ∀ c ∈ dp, wfChild c := by
  intro ps
  induction ps with
  | nil =>
    intro w dp wOut h c hc
    simp only [parseDerivSteps, Except.ok.injEq, Prod.mk.injEq] at h
    rw [← h.1] at hc
    simp at hc
  | cons p rest ih =>
    intro w dp wOut h c hc
    unfold parseDerivSteps at h
    split at h
    · exact ih true dp wOut h c hc
    · split at h
      · exact absurd h (by simp)
      · split at h
        · exact absurd h (by simp)
        · split at h
          · exact absurd h (by simp)
          · split at h
            · exact absurd h (by simp)
            · simp only [Except.ok.injEq, Prod.mk.injEq] at h
              obtain ⟨h1, h2⟩ := h
              rw [← h1] at hc
              rcases List.mem_cons.mp hc with h3 | hm
              · subst h3
                exact childNumberFromStr_wf p c (by assumption)
              · exact ih w _ _ (by assumption) c hm

theorem parse_xkey_deriv_wf {X : Type} (parseX : List Char → Option X) (cdh : Bool)
    (kd : List Char) (x : X) (dp : List ChildNumber) (w : Bool)
    (h : parse_xkey_deriv parseX cdh kd = .ok (x, dp, w)) : ∀ c ∈ dp, wfChild c := by
  unfold parse_xkey_deriv at h
  split at h
  · exact absurd h (by simp)
  · split at h
    · exact absurd h (by simp)
    · split at h
      · exact absurd h (by simp)
      · split at h
        · exact absurd h (by simp)
        · simp only [Except.ok.injEq, Prod.mk.injEq] at h
          obtain ⟨-, h2, -⟩ := h
          rw [← h2]
          exact parseDerivSteps_wf _ false _ _ (by assumption)

theorem parse_xkey_origin_wf (s kp : List Char) (o : Option (Nat × List ChildNumber))
    (h : parse_xkey_origin s = .ok (kp, o)) : wfOrigin o := by
  unfold parse_xkey_origin at h
  split at h
  · exact absurd h (by simp)
  · split at h
    · exact absurd h (by simp)
    · split at h
      · split at h
        · exact absurd h (by simp)
        · split at h
          · exact absurd h (by simp)
          · split at h
            · exact absurd h (by simp)
            · split at h
              · exact absurd h (by simp)
              · split at h
                · exact absurd h (by simp)
                · split at h
                  · exact absurd h (by simp)
                  · split at h
                    · exact absurd h (by simp)
                    · simp only [Except.ok.injEq, Prod.mk.injEq] at h
                      obtain ⟨-, h2⟩ := h
                      rw [← h2]
                      refine ⟨?_, ?_⟩
                      · have hx : ∃ l : List Char, parseHex8 l = some _ ∧ ¬(l.length ≠ 8) :=
                          ⟨_, by assumption, by assumption⟩
                        obtain ⟨l, hpl, hll⟩ := hx
                        have hb := parseHex8_lt l _ hpl
                        rw [not_ne_iff.mp hll] at hb
                        norm_num at hb
                        exact hb
                      · have hx : ∃ ps, childList ps = some _ := ⟨_, by assumption⟩
                        obtain ⟨ps, hps⟩ := hx
                        exact childList_wf ps _ hps
      · simp only [Except.ok.injEq, Prod.mk.injEq] at h
        rw [← h.2]
        trivial

theorem from_str_pub_wf {PubKey Xpub : Type} (P : PubPrims PubKey Xpub) (s : List Char)
    (k : DescriptorPublicKey PubKey Xpub) (h : DescriptorPublicKey.from_str P s = .ok k) :
    wfPub k := by
  unfold DescriptorPublicKey.from_str at h
  split at h
  · exact absurd h (by simp)
  · split at h
    · exact absurd h (by simp)
    · split at h
      · split at h
        · exact absurd h (by simp)
        · simp only [Except.ok.injEq] at h
          rw [← h]
          refine ⟨?_, ?_⟩
          · have hx : ∃ kp, parse_xkey_origin s = .ok (kp, _) := ⟨_, by assumption⟩
            obtain ⟨kp, hkp⟩ := hx
            exact parse_xkey_origin_wf s kp _ hkp
          · intro c hc
            have hx : ∃ kd, parse_xkey_deriv P.parse_xpub false kd = .ok (_, _, _) :=
              ⟨_, by assumption⟩
            obtain ⟨kd, hkd⟩ := hx
            refine ⟨parse_xkey_deriv_wf P.parse_xpub false kd _ _ _ hkd c hc, ?_⟩
            have hall := parse_xkey_deriv_pub_normal P.parse_xpub kd _ _ _ hkd
            exact List.all_eq_true.mp hall c hc
      · split at h
        · exact absurd h (by simp)
        · split at h
          · exact absurd h (by simp)
          · simp only [Except.ok.injEq] at h
            rw [← h]
            have hx : ∃ kp, parse_xkey_origin s = .ok (kp, _) := ⟨_, by assumption⟩
            obtain ⟨kp, hkp⟩ := hx
            exact parse_xkey_origin_wf s kp _ hkp

theorem from_str_sec_wf {PrivKey Xprv : Type} (Q : SecPrims PrivKey Xprv) (s : List Char)
    (k : DescriptorSecretKey PrivKey Xprv) (h : DescriptorSecretKey.from_str Q s = .ok k) :
    wfSec k := by
  unfold DescriptorSecretKey.from_str at h
  split at h
  · exact absurd h (by simp)
  · split at h
    · split at h
      · exact absurd h (by simp)
      · simp only [Except.ok.injEq] at h
        rw [← h]
        rfl
    · split at h
      · exact absurd h (by simp)
      · simp only [Except.ok.injEq] at h
        rw [← h]
        refine ⟨?_, ?_⟩
        · have hx : ∃ kp, parse_xkey_origin s = .ok (kp, _) := ⟨_, by assumption⟩
          obtain ⟨kp, hkp⟩ := hx
          exact parse_xkey_origin_wf s kp _ hkp
        · intro c hc
          have hx : ∃ kd, parse_xkey_deriv Q.parse_xprv true kd = .ok (_, _, _) :=
            ⟨_, by assumption⟩
          obtain ⟨kd, hkd⟩ := hx
          exact parse_xkey_deriv_wf Q.parse_xprv true kd _ _ _ hkd c hc

theorem wc_chars (w : Bool) : ∀ c ∈ (if w = true then ['/', '*'] else []),
    printable c ∧ c ≠ ']' ∧ c ≠ '[' := by
  cases w with
  | false => intro c hc; simp at hc
  | true =>
    intro c hc
    rcases (by simpa using hc : c = '/' ∨ c = '*') with rfl | rfl <;> decide

theorem pub_render_parse {PubKey Xpub : Type} (P : PubPrims PubKey Xpub) (hP : PubPrimsOk P)
    (k : DescriptorPublicKey PubKey Xpub) (hwf : wfPub k) :
    DescriptorPublicKey.from_str P (DescriptorPublicKey.to_text P k) = .ok k := by
  cases k with
  | SinglePub origin key =>
    have hwfo : wfOrigin origin := hwf
    have hprb : ∀ c ∈ P.render_pubkey key, printable c := hP.pubkey_printable key
    have hprint : ∀ c ∈ renderOrigin origin ++ P.render_pubkey key, printable c := by
      intro c hc
      rcases List.mem_append.mp hc with h1 | h1
      · exact renderOrigin_printable origin c h1
      · exact hprb c h1
    have hlen : ¬ utf8Len (renderOrigin origin ++ P.render_pubkey key) < 66 := by
      rw [utf8Len_eq_length _ hprint, List.length_append]
      have := hP.pubkey_len key
      omega
    show DescriptorPublicKey.from_str P (renderOrigin origin ++ P.render_pubkey key) = _
    unfold DescriptorPublicKey.from_str
    rw [if_neg hlen,
      parse_xkey_origin_render origin (P.render_pubkey key) hwfo (hP.pubkey_ne key)
        (head_not_bracket' _ (hP.pubkey_ne key) (hP.pubkey_no_open key)) hprb
        (hP.pubkey_no_close key)]
    dsimp only
    rw [if_neg (by rw [not_containsSub_of_no_p _ (hP.pubkey_no_p key)]; simp),
      if_neg (by rintro ⟨-, hpre⟩; exact hpre (hP.pubkey_pre key)), hP.pubkey_rt key]
  | XPub xk =>
    obtain ⟨origin, x, dpath, w⟩ := xk
    obtain ⟨hwfo, hsteps⟩ := hwf
    have hwcc := wc_chars w
    have hbody_pr : ∀ c ∈ P.render_xpub x ++ (renderPath dpath ++
        (if w = true then ['/', '*'] else [])), printable c := by
      intro c hc
      rcases List.mem_append.mp hc with h1 | h1
      · exact hP.xpub_printable x c h1
      · rcases List.mem_append.mp h1 with h2 | h2
        · exact (renderPath_chars dpath c h2).1
        · exact (hwcc c h2).1
    have hbody_ne : P.render_xpub x ++ (renderPath dpath ++
        (if w = true then ['/', '*'] else [])) ≠ [] := by
      intro hnil
      exact hP.xpub_ne x (List.append_eq_nil.mp hnil).1
    have hbody_head : (P.render_xpub x ++ (renderPath dpath ++
        (if w = true then ['/', '*'] else []))).head? ≠ some '[' :=
      head_not_bracket _ _ (hP.xpub_ne x) (hP.xpub_no_open x)
    have hbody_nc : ']' ∉ P.render_xpub x ++ (renderPath dpath ++
        (if w = true then ['/', '*'] else [])) := by
      intro hc
      rcases List.mem_append.mp hc with h1 | h1
      · exact hP.xpub_no_close x h1
      · rcases List.mem_append.mp h1 with h2 | h2
        · exact absurd rfl (renderPath_chars dpath ']' h2).2.1
        · exact absurd rfl (hwcc ']' h2).2.1
    have hprint : ∀ c ∈ renderOrigin origin ++ (P.render_xpub x ++ (renderPath dpath ++
        (if w = true then ['/', '*'] else []))), printable c := by
      intro c hc
      rcases List.mem_append.mp hc with h1 | h1
      · exact renderOrigin_printable origin c h1
      · exact hbody_pr c h1
    have hlen : ¬ utf8Len (renderOrigin origin ++ (P.render_xpub x ++ (renderPath dpath ++
        (if w = true then ['/', '*'] else [])))) < 66 := by
      rw [utf8Len_eq_length _ hprint, List.length_append, List.length_append]
      have := hP.xpub_len x
      omega
    have hsplit : splitOnChar '/' (P.render_xpub x ++ (renderPath dpath ++
        (if w = true then ['/', '*'] else []))) =
        P.render_xpub x :: (dpath.map renderChild ++ (if w = true then [['*']] else [])) := by
      rw [renderPath_wc_flatten dpath w]
      refine splitOnChar_flatten '/' _ (P.render_xpub x) (hP.xpub_no_slash x) ?_
      intro g hg
      rcases List.mem_append.mp hg with h2 | h2
      · obtain ⟨ch, hch, rfl⟩ := List.mem_map.mp h2
        intro hmem
        exact absurd rfl (renderChild_chars ch '/' hmem).2.2.1
      · cases w with
        | false => simp at h2
        | true =>
          rw [show g = ['*'] from by simpa using h2]
          decide
    have htext : DescriptorPublicKey.to_text P (.XPub ⟨origin, x, dpath, w⟩) =
        renderOrigin origin ++ (P.render_xpub x ++ (renderPath dpath ++
          (if w = true then ['/', '*'] else []))) := by
      show renderOrigin origin ++ P.render_xpub x ++ renderPath dpath ++
          (if w = true then ['/', '*'] else []) = _
      simp [List.append_assoc]
    rw [htext]
    unfold DescriptorPublicKey.from_str
    rw [if_neg hlen,
      parse_xkey_origin_render origin _ hwfo hbody_ne hbody_head hbody_pr hbody_nc]
    dsimp only
    rw [if_pos (containsSub_append_left pubPat _ _ (hP.xpub_has_pub x))]
    unfold parse_xkey_deriv
    rw [hsplit]
    dsimp only
    rw [hP.xpub_rt x]
    dsimp only
    rw [parseDerivSteps_render dpath w (fun c hc => (hsteps c hc).1)]
    dsimp only
    rw [if_neg (by
      rintro ⟨-, hall⟩
      rw [List.all_eq_true.mpr (fun c hc => (hsteps c hc).2)] at hall
      exact Bool.noConfusion hall)]

theorem sec_render_parse {PrivKey Xprv : Type} (Q : SecPrims PrivKey Xprv) (hQ : SecPrimsOk Q)
    (k : DescriptorSecretKey PrivKey Xprv) (hwf : wfSec k) :
    DescriptorSecretKey.from_str Q (DescriptorSecretKey.to_text Q k) = .ok k := by
  cases k with
  | SinglePriv origin key =>
    have ho : origin = none := hwf
    subst ho
    show DescriptorSecretKey.from_str Q (renderOrigin none ++ Q.render_wif key) = _
    unfold DescriptorSecretKey.from_str
    rw [parse_xkey_origin_render none (Q.render_wif key) trivial (hQ.wif_ne key)
      (head_not_bracket' _ (hQ.wif_ne key) (hQ.wif_no_open key)) (hQ.wif_printable key)
      (hQ.wif_no_close key)]
    dsimp only
    rw [if_pos (hQ.wif_len key), hQ.wif_rt key]
  | XPrv xk =>
    obtain ⟨origin, x, dpath, w⟩ := xk
    obtain ⟨hwfo, hsteps⟩ := hwf
    have hwcc := wc_chars w
    have hbody_pr : ∀ c ∈ Q.render_xprv x ++ (renderPath dpath ++
        (if w = true then ['/', '*'] else [])), printable c := by
      intro c hc
      rcases List.mem_append.mp hc with h1 | h1
      · exact hQ.xprv_printable x c h1
      · rcases List.mem_append.mp h1 with h2 | h2
        · exact (renderPath_chars dpath c h2).1
        · exact (hwcc c h2).1
    have hbody_ne : Q.render_xprv x ++ (renderPath dpath ++
        (if w = true then ['/', '*'] else [])) ≠ [] := by
      intro hnil
      exact hQ.xprv_ne x (List.append_eq_nil.mp hnil).1
    have hbody_head : (Q.render_xprv x ++ (renderPath dpath ++
        (if w = true then ['/', '*'] else []))).head? ≠ some '[' :=
      head_not_bracket _ _ (hQ.xprv_ne x) (hQ.xprv_no_open x)
    have hbody_nc : ']' ∉ Q.render_xprv x ++ (renderPath dpath ++
        (if w = true then ['/', '*'] else [])) := by
      intro hc
      rcases List.mem_append.mp hc with h1 | h1
      · exact hQ.xprv_no_close x h1
      · rcases List.mem_append.mp h1 with h2 | h2
        · exact absurd rfl (renderPath_chars dpath ']' h2).2.1
        · exact absurd rfl (hwcc ']' h2).2.1
    have hlong : ¬ (Q.render_xprv x ++ (renderPath dpath ++
        (if w = true then ['/', '*'] else []))).length ≤ 52 := by
      rw [List.length_append]
      have := hQ.xprv_len x
      omega
    have hsplit : splitOnChar '/' (Q.render_xprv x ++ (renderPath dpath ++
        (if w = true then ['/', '*'] else []))) =
        Q.render_xprv x :: (dpath.map renderChild ++ (if w = true then [['*']] else [])) := by
      rw [renderPath_wc_flatten dpath w]
      refine splitOnChar_flatten '/' _ (Q.render_xprv x) (hQ.xprv_no_slash x) ?_
      intro g hg
      rcases List.mem_append.mp hg with h2 | h2
      · obtain ⟨ch, hch, rfl⟩ := List.mem_map.mp h2
        intro hmem
        exact absurd rfl (renderChild_chars ch '/' hmem).2.2.1
      · cases w with
        | false => simp at h2
        | true =>
          rw [show g = ['*'] from by simpa using h2]
          decide
    have htext : DescriptorSecretKey.to_text Q (.XPrv ⟨origin, x, dpath, w⟩) =
        renderOrigin origin ++ (Q.render_xprv x ++ (renderPath dpath ++
          (if w = true then ['/', '*'] else []))) := by
      show renderOrigin origin ++ Q.render_xprv x ++ renderPath dpath ++
          (if w = true then ['/', '*'] else []) = _
      simp [List.append_assoc]
    rw [htext]
    unfold DescriptorSecretKey.from_str
    rw [parse_xkey_origin_render origin _ hwfo hbody_ne hbody_head hbody_pr hbody_nc]
    dsimp only
    rw [if_neg hlong]
    unfold parse_xkey_deriv
    rw [hsplit]
    dsimp only
    rw [hQ.xprv_rt x]
    dsimp only
    rw [parseDerivSteps_render dpath w hsteps]
    dsimp only
    rw [if_neg (by simp)]

/-- C3: for every string either parser accepts, rendering the parsed value
with the serializer and parsing the rendered text again returns exactly the
same structured value (the value-level statement of "round-trips modulo
fingerprint/path normalization": hex case and index formatting are
normalized away by the first parse). -/
theorem round_trip {PubKey Xpub PrivKey Xprv : Type} (P : PubPrims PubKey Xpub)
    (Q : SecPrims PrivKey Xprv) (hP : PubPrimsOk P) (hQ : SecPrimsOk Q) :
    (∀ s k, DescriptorPublicKey.from_str P s = .ok k →
      DescriptorPublicKey.from_str P (DescriptorPublicKey.to_text P k) = .ok k) ∧
    (∀ s k, DescriptorSecretKey.from_str Q s = .ok k →
      DescriptorSecretKey.from_str Q (DescriptorSecretKey.to_text Q k) = .ok k) :=
  ⟨fun s k h => pub_render_parse P hP k (from_str_pub_wf P s k h),
   fun s k h => sec_render_parse Q hQ k (from_str_sec_wf Q s k h)⟩

theorem toyPubPrims_ok : PubPrimsOk toyPubPrims := by
  constructor <;> intro x <;> cases x <;> decide

theorem toySecPrims_ok : SecPrimsOk toySecPrims := by
  constructor <;> intro x <;> cases x <;> decide

/-- C3 witness: the sample accepted public-key string round-trips, and so
does a WIF secret-key string. -/
theorem round_trip_witness :
    DescriptorPublicKey.from_str toyPubPrims
        (DescriptorPublicKey.to_text toyPubPrims sampleXpubKey) = .ok sampleXpubKey ∧
    DescriptorSecretKey.from_str toySecPrims
        (DescriptorSecretKey.to_text toySecPrims (.SinglePriv none ())) =
      .ok (.SinglePriv none ()) :=
  ⟨(round_trip toyPubPrims toySecPrims toyPubPrims_ok toySecPrims_ok).1 sampleXpubInput
      sampleXpubKey (by decide),
   (round_trip toyPubPrims toySecPrims toyPubPrims_ok toySecPrims_ok).2 toyWifStr
      (.SinglePriv none ()) (by decide)⟩

end ElementsMiniscript
